import Mathlib

/-!
Verification of the task-allocation core of the HEMS repository
(`tools/task_allocation_tester/task_allocation_tester.py`).

The embedding below translates the three placement heuristics
(`first_fit`, `next_fit`, `best_fit`), the three sort keys, and the
efficacy computation of the evaluation loop.  Slot capacities, task
durations (`width`) and power draws (`height`) are Python integers in
every reachable state of the reference script, so they are embedded as
`Int`; the mutable `step_function` list is threaded explicitly.
-/

/-- A schedulable task, mirroring the `task` class: `width` is the duration
in slots, `height` the power draw.  The mutable placement state
(`start_time`, `end_time`, both initially `-1`) is returned by the
heuristics as an `Int × Int` pair per task instead of being mutated. -/
structure task where
  width : Int
  height : Int
deriving DecidableEq, Repr

/-- The run-tracking scan shared by `first_fit` and `next_fit`:
`t` is the enumeration counter, `t1` the start of the current feasible run
(`-1` when no run is open), `t2` the accepted window end (`-1` until the
loop breaks).  Each list element plays the role of `step`; the function
returns the final `(t1, t2)` pair, breaking (returning early) the instant
`t - t1 == width - 1`. -/
def scanRun (hgt w : Int) : List Int → Nat → Int → Int → Int × Int
  | [], _, t1, t2 => (t1, t2)
  | step :: rest, t, t1, t2 =>
    if step < hgt then scanRun hgt w rest (t + 1) (-1) t2
    else if (t : Int) - (if t1 = -1 then (t : Int) else t1) = w - 1 then
      ((if t1 = -1 then (t : Int) else t1), (t : Int))
    else scanRun hgt w rest (t + 1) (if t1 = -1 then (t : Int) else t1) t2

/-- The loop `for t in range(t1, t2 + 1): step_function[t] -= x.height` — subtract
`hgt` from every slot whose index lies in `[t1, t2]` (no slot when
`t2 < t1`; whenever the reference reaches this loop, `t1` and `t2` are
actual slot indices of the list).  `t` is the index of the head. -/
def applyWindow (hgt t1 t2 : Int) : List Int → Nat → List Int
  | [], _ => []
  | v :: rest, t =>
    (if t1 ≤ (t : Int) ∧ (t : Int) ≤ t2 then v - hgt else v)
      :: applyWindow hgt t1 t2 rest (t + 1)

/-- The body of `first_fit`'s task loop for one task: scan, then place if
both `t1` and `t2` were set.  Returns the recorded placement state and the
(possibly mutated) profile. -/
def ffStep (P : List Int) (x : task) : (Int × Int) × List Int :=
  let r := scanRun x.height x.width P 0 (-1) (-1)
  if r.1 ≠ -1 ∧ r.2 ≠ -1 then ((r.1, r.2), applyWindow x.height r.1 r.2 P 0)
  else (((-1 : Int), (-1 : Int)), P)

/-- The function `first_fit(tasks, step_function)`: process the tasks in order, threading
the mutated profile; returns the placement states in task order and the
final profile. -/
def first_fit : List task → List Int → List (Int × Int) × List Int
  | [], P => ([], P)
  | x :: ts, P =>
    ((ffStep P x).1 :: (first_fit ts (ffStep P x).2).1,
      (first_fit ts (ffStep P x).2).2)

/-- The body of `next_fit`'s task loop for one task.  The reference assigns
`it_begin = 0` as the first statement of the loop body, so each task scans
`step_function[0:]`; if that scan leaves `t1` or `t2` unset it rescans the
(empty) slice `step_function[:0]` carrying `t1` and `t2` over.  The
trailing reassignment of `it_begin` in the reference is dead (the next
iteration overwrites it before any use) and is therefore not part of the
observable state. -/
def nfStep (P : List Int) (x : task) : (Int × Int) × List Int :=
  let r0 := scanRun x.height x.width (P.drop 0) 0 (-1) (-1)
  let r := if r0.1 = -1 ∨ r0.2 = -1 then
      scanRun x.height x.width (P.take 0) 0 r0.1 r0.2
    else r0
  if r.1 ≠ -1 ∧ r.2 ≠ -1 then ((r.1, r.2), applyWindow x.height r.1 r.2 P 0)
  else (((-1 : Int), (-1 : Int)), P)

/-- The function `next_fit(tasks, step_function)`. -/
def next_fit : List task → List Int → List (Int × Int) × List Int
  | [], P => ([], P)
  | x :: ts, P =>
    ((nfStep P x).1 :: (next_fit ts (nfStep P x).2).1,
      (next_fit ts (nfStep P x).2).2)

/-- The scan of `best_fit`: on top of the `(t1, t2)` run tracking it carries
`curA` (`cur_area`), `maxA` (`max_area`) and `best` (`best_pos`), returning
`(t1, t2, best_pos)`.  Note the reference adds `step - height` once when it
opens a run and then again in the same iteration via the separate
`if t - t1 < width - 1` / `elif t - t1 == width - 1` statement. -/
def bfLoop (hgt w : Int) : List Int → Nat → Int → Int → Int → Int → Int × Int × Int
  | [], _, t1, _, _, best => (t1, -1, best)
  | step :: rest, t, t1, curA, maxA, best =>
    if step < hgt then bfLoop hgt w rest (t + 1) (-1) 0 maxA best
    else if (t : Int) - (if t1 = -1 then (t : Int) else t1) < w - 1 then
      bfLoop hgt w rest (t + 1) (if t1 = -1 then (t : Int) else t1)
        ((if t1 = -1 then curA + (step - hgt) else curA) + (step - hgt)) maxA best
    else if (t : Int) - (if t1 = -1 then (t : Int) else t1) = w - 1 then
      ((if t1 = -1 then (t : Int) else t1), (t : Int),
        if maxA < (if t1 = -1 then curA + (step - hgt) else curA) + (step - hgt)
        then (if t1 = -1 then (t : Int) else t1) else best)
    else bfLoop hgt w rest (t + 1) (if t1 = -1 then (t : Int) else t1)
      (if t1 = -1 then curA + (step - hgt) else curA) maxA best

/-- The body of `best_fit`'s task loop for one task: the profile is mutated
over `[t1, t2]` exactly as in `first_fit`, but the recorded placement is
`(best_pos, best_pos + width - 1)`. -/
def bfStep (P : List Int) (x : task) : (Int × Int) × List Int :=
  let r := bfLoop x.height x.width P 0 (-1) 0 0 (-1)
  if r.1 ≠ -1 ∧ r.2.1 ≠ -1 then
    ((r.2.2, r.2.2 + x.width - 1), applyWindow x.height r.1 r.2.1 P 0)
  else (((-1 : Int), (-1 : Int)), P)

/-- The function `best_fit(tasks, step_function)`. -/
def best_fit : List task → List Int → List (Int × Int) × List Int
  | [], P => ([], P)
  | x :: ts, P =>
    ((bfStep P x).1 :: (best_fit ts (bfStep P x).2).1,
      (best_fit ts (bfStep P x).2).2)

/-- The key `sort_by_width(x)`. -/
def sort_by_width (x : task) : Int := x.width

/-- The key `sort_by_height(x)`. -/
def sort_by_height (x : task) : Int := x.height

/-- The key `sort_by_area(x)`. -/
def sort_by_area (x : task) : Int := x.width * x.height

instance decKeyLe (key : task → Int) : DecidableRel (fun a b => key a ≤ key b) :=
  fun a b => Int.decLe (key a) (key b)

/-- The sort `tasks.sort(key=k)`: Python's `list.sort` is the stable ascending sort
by the key, and stable ascending sorting is a unique function of the list;
it is embedded as a stable insertion sort. -/
def sortTasks (key : task → Int) (ts : List task) : List task :=
  List.insertionSort (fun a b => key a ≤ key b) ts

/-- The quantity `total_area = Σ x.width * x.height` over the task batch. -/
def total_area (ts : List task) : Int := (ts.map (fun x => x.width * x.height)).sum

/-- The efficacy expression
`(original_energy - remaining_energy) / min(total_area, original_energy)`
of the evaluation loop.  The division is a fallible operation: when the
denominator `min(total_area, original_energy)` is zero the reference
computation has no value (a `ZeroDivisionError` under Python's exact
integer semantics), embedded as `none`. -/
def efficacy_value (original remaining area : Int) : Option ℚ :=
  if min area original = 0 then none
  else some (((original - remaining : Int) : ℚ) / ((min area original : Int) : ℚ))

/-- One trial of the evaluation loop with a fixed heuristic: record the
profile total before and after allocation and form the efficacy quotient. -/
def run_trial (heuristic : List task → List Int → List (Int × Int) × List Int)
    (ts : List task) (P : List Int) : Option ℚ :=
  efficacy_value P.sum ((heuristic ts P).2).sum (total_area ts)

/-- Specification-side feasibility: the window of `w` consecutive slots
starting at slot `s` lies inside the profile and every slot in it has
capacity at least `hgt`. -/
def fits (hgt : Int) (w : Nat) (P : List Int) (s : Nat) : Prop :=
  s + w ≤ P.length ∧ ∀ i : Nat, i < w → hgt ≤ P.getD (s + i) 0

instance decFits (hgt : Int) (w : Nat) (P : List Int) (s : Nat) :
    Decidable (fits hgt w P s) := by
  unfold fits; infer_instance

/-- Here `slackFrom hgt P m k = Σ_{i < k} (P[m+i] - hgt)`: the total slack of the
`k` slots starting at slot `m`. -/
def slackFrom (hgt : Int) (P : List Int) (m : Nat) : Nat → Int
  | 0 => 0
  | k + 1 => slackFrom hgt P m k + (P.getD (m + k) 0 - hgt)

lemma getD_drop (l : List Int) (n m : Nat) : (l.drop n).getD m 0 = l.getD (n + m) 0 := by
  simp [List.getD_eq_getElem?_getD, List.getElem?_drop]

lemma drop_cons_facts {P : List Int} {t0 : Nat} {v : Int} {rest : List Int}
    (hp : P.drop t0 = v :: rest) :
    P.getD t0 0 = v ∧ P.drop (t0 + 1) = rest ∧ t0 < P.length := by
  have hlen : t0 < P.length := by
    by_contra h
    rw [List.drop_eq_nil_of_le (by omega)] at hp
    exact (List.cons_ne_nil _ _) hp.symm
  refine ⟨?_, ?_, hlen⟩
  · have h0 := getD_drop P t0 0
    rw [hp] at h0
    simpa using h0.symm
  · have h1 : (P.drop t0).drop 1 = P.drop (t0 + 1) := List.drop_drop 1 t0 P
    rw [hp] at h1
    simpa using h1.symm

lemma getD_nonneg_of_forall_mem {l : List Int} (h : ∀ v ∈ l, 0 ≤ v) (j : Nat) :
    0 ≤ l.getD j 0 := by
  induction l generalizing j with
  | nil => simp [List.getD]
  | cons a tl ih =>
    cases j with
    | zero => simpa using h a (by simp)
    | succ k => simpa using ih (fun v hv => h v (by simp [hv])) k

lemma forall_mem_of_getD {l : List Int} (h : ∀ j : Nat, j < l.length → 0 ≤ l.getD j 0) :
    ∀ v ∈ l, 0 ≤ v := by
  induction l with
  | nil => simp
  | cons a tl ih =>
    intro v hv
    rcases List.mem_cons.mp hv with rfl | hv'
    · simpa using h 0 (by simp)
    · exact ih (fun j hj => by simpa using h (j + 1) (by simpa using hj)) v hv'

lemma applyWindow_length (hgt t1 t2 : Int) :
    ∀ (P : List Int) (t : Nat), (applyWindow hgt t1 t2 P t).length = P.length := by
  intro P
  induction P with
  | nil => intro t; rfl
  | cons v rest ih => intro t; simp [applyWindow, ih]

lemma applyWindow_getD (hgt t1 t2 : Int) :
    ∀ (P : List Int) (t0 j : Nat), j < P.length →
      (applyWindow hgt t1 t2 P t0).getD j 0 =
        if t1 ≤ ((t0 + j : Nat) : Int) ∧ ((t0 + j : Nat) : Int) ≤ t2
        then P.getD j 0 - hgt else P.getD j 0 := by
  intro P
  induction P with
  | nil => intro t0 j hj; simp at hj
  | cons v rest ih =>
    intro t0 j hj
    cases j with
    | zero => simp [applyWindow]
    | succ k =>
      have hk := ih (t0 + 1) k (by simpa using hj)
      have harith : t0 + 1 + k = t0 + (k + 1) := by omega
      simp only [applyWindow, List.getD_cons_succ]
      rw [hk, harith]

/-- Shape of the scan's second component: it is either the carried `t2` or a
slot index (set at a break). -/
lemma scanRun_snd_shape (hgt w : Int) :
    ∀ (p : List Int) (t : Nat) (c d : Int),
      (scanRun hgt w p t c d).2 = d ∨ ∃ n : Nat, (scanRun hgt w p t c d).2 = (n : Int) := by
  intro p
  induction p with
  | nil => intro t c d; left; rfl
  | cons step rest ih =>
    intro t c d
    simp only [scanRun]
    by_cases hs : step < hgt
    · rw [if_pos hs]; exact ih _ _ _
    · rw [if_neg hs]
      by_cases hb : (t : Int) - (if c = -1 then (t : Int) else c) = w - 1
      · rw [if_pos hb]; right; exact ⟨t, rfl⟩
      · rw [if_neg hb]; exact ih _ _ _

/-- Soundness of the run-tracking scan: if the scan of `P.drop t0` (with a
carried run satisfying the stated invariant) ends with `t2` a slot index,
then `t1` is a slot index too, `t2 = t1 + w - 1`, the window lies inside
`P`, and every slot of the window `[t1, t2]` has capacity at least `hgt`. -/
lemma scanRun_sound (hgt w : Int) (P : List Int) :
    ∀ (p : List Int) (t0 : Nat) (c : Int), p = P.drop t0 →
      (c = -1 ∨ ∃ m : Nat, c = (m : Int) ∧ m ≤ t0 ∧
        ∀ j : Nat, m ≤ j → j < t0 → hgt ≤ P.getD j 0) →
      ∀ n2 : Nat, (scanRun hgt w p t0 c (-1)).2 = (n2 : Int) →
      ∃ n1 : Nat, (scanRun hgt w p t0 c (-1)).1 = (n1 : Int) ∧
        n1 ≤ n2 ∧ n2 < P.length ∧ (n2 : Int) = (n1 : Int) + w - 1 ∧
        ∀ j : Nat, n1 ≤ j → j ≤ n2 → hgt ≤ P.getD j 0 := by
  intro p
  induction p with
  | nil =>
    intro t0 c hp hc n2 h2
    simp only [scanRun] at h2
    exact absurd h2 (by omega)
  | cons step rest ih =>
    intro t0 c hp hc n2 h2
    obtain ⟨hstep, hrest, hlen⟩ := drop_cons_facts hp.symm
    by_cases hs : step < hgt
    · simp only [scanRun, if_pos hs] at h2 ⊢
      exact ih (t0 + 1) (-1) hrest.symm (Or.inl rfl) n2 h2
    · have hexists : ∃ m' : Nat, (if c = -1 then (t0 : Int) else c) = (m' : Int) ∧
          m' ≤ t0 ∧ ∀ j : Nat, m' ≤ j → j < t0 + 1 → hgt ≤ P.getD j 0 := by
        rcases hc with rfl | ⟨m, rfl, hm, hwin⟩
        · refine ⟨t0, by simp, le_refl _, fun j hj1 hj2 => ?_⟩
          have hj : j = t0 := by omega
          subst hj
          rw [hstep]
          exact not_lt.mp hs
        · refine ⟨m, by rw [if_neg (by omega)], hm, fun j hj1 hj2 => ?_⟩
          rcases Nat.lt_or_ge j t0 with hj | hj
          · exact hwin j hj1 hj
          · have hj' : j = t0 := by omega
            subst hj'
            rw [hstep]
            exact not_lt.mp hs
      obtain ⟨m', hc', hm'le, hwin'⟩ := hexists
      simp only [scanRun, if_neg hs] at h2 ⊢
      rw [hc'] at h2 ⊢
      by_cases hbreak : (t0 : Int) - (m' : Int) = w - 1
      · rw [if_pos hbreak] at h2 ⊢
        have hn2 : n2 = t0 := by
          simp only at h2
          omega
        subst hn2
        exact ⟨m', rfl, hm'le, hlen, by omega,
          fun j hj1 hj2 => hwin' j hj1 (by omega)⟩
      · rw [if_neg hbreak] at h2 ⊢
        exact ih (t0 + 1) (m' : Int) hrest.symm
          (Or.inr ⟨m', rfl, by omega, hwin'⟩) n2 h2

/-- Top-level soundness for the scan as called by `first_fit`. -/
lemma scanRun_top_sound (hgt w : Int) (P : List Int) (n2 : Nat)
    (h2 : (scanRun hgt w P 0 (-1) (-1)).2 = (n2 : Int)) :
    ∃ n1 : Nat, (scanRun hgt w P 0 (-1) (-1)).1 = (n1 : Int) ∧
      n1 ≤ n2 ∧ n2 < P.length ∧ (n2 : Int) = (n1 : Int) + w - 1 ∧
      ∀ j : Nat, n1 ≤ j → j ≤ n2 → hgt ≤ P.getD j 0 :=
  scanRun_sound hgt w P P 0 (-1) (List.drop_zero P).symm (Or.inl rfl) n2 h2

/-- Minimality of the run-tracking scan for `w ≥ 1`: when the scan of
`P.drop t0` breaks at a window starting at `n1`, no window starting
strictly before `n1` is feasible.  The invariant carries, for an open run
starting at `m`, the bound `t0 - m ≤ w - 1` and the infeasibility of every
start before `m`. -/
lemma scanRun_min (hgt : Int) (w : Nat) (hw : 1 ≤ w) (P : List Int) :
    ∀ (p : List Int) (t0 : Nat) (c : Int), p = P.drop t0 →
      ((c = -1 ∧ ∀ s : Nat, s < t0 → ¬ fits hgt w P s) ∨
       (∃ m : Nat, c = (m : Int) ∧ m ≤ t0 ∧ t0 - m ≤ w - 1 ∧
         (∀ j : Nat, m ≤ j → j < t0 → hgt ≤ P.getD j 0) ∧
         ∀ s : Nat, s < m → ¬ fits hgt w P s)) →
      ∀ n1 : Nat, (scanRun hgt (w : Int) p t0 c (-1)).1 = (n1 : Int) →
        0 ≤ (scanRun hgt (w : Int) p t0 c (-1)).2 →
        ∀ s : Nat, s < n1 → ¬ fits hgt w P s := by
  intro p
  induction p with
  | nil =>
    intro t0 c hp hc n1 h1 h2
    simp only [scanRun] at h2
    omega
  | cons step rest ih =>
    intro t0 c hp hc n1 h1 h2
    obtain ⟨hstep, hrest, hlen⟩ := drop_cons_facts hp.symm
    by_cases hs : step < hgt
    · simp only [scanRun, if_pos hs] at h1 h2
      refine ih (t0 + 1) (-1) hrest.symm (Or.inl ⟨rfl, ?_⟩) n1 h1 h2
      intro s hst hfit
      rcases hc with ⟨_, hmin⟩ | ⟨m, rfl, hm, hbound, hrun, hmin⟩
      · rcases Nat.lt_or_ge s t0 with hst' | hst'
        · exact hmin s hst' hfit
        · have hs0 : s = t0 := by omega
          subst hs0
          have := hfit.2 0 (by omega)
          rw [Nat.add_zero, hstep] at this
          omega
      · rcases Nat.lt_or_ge s m with hsm | hsm
        · exact hmin s hsm hfit
        · -- the window starting at s contains the failing slot t0
          have hcontain : t0 - s < w := by omega
          have := hfit.2 (t0 - s) hcontain
          have hidx : s + (t0 - s) = t0 := by omega
          rw [hidx, hstep] at this
          omega
    · have hexists : ∃ m' : Nat, (if c = -1 then (t0 : Int) else c) = (m' : Int) ∧
          m' ≤ t0 ∧ (∀ j : Nat, m' ≤ j → j < t0 + 1 → hgt ≤ P.getD j 0) ∧
          ∀ s : Nat, s < m' → ¬ fits hgt w P s := by
        rcases hc with ⟨rfl, hmin⟩ | ⟨m, rfl, hm, hbound, hrun, hmin⟩
        · refine ⟨t0, by simp, le_refl _, fun j hj1 hj2 => ?_, hmin⟩
          have hj : j = t0 := by omega
          subst hj
          rw [hstep]
          exact not_lt.mp hs
        · refine ⟨m, by rw [if_neg (by omega)], hm, fun j hj1 hj2 => ?_, hmin⟩
          rcases Nat.lt_or_ge j t0 with hj | hj
          · exact hrun j hj1 hj
          · have hj' : j = t0 := by omega
            subst hj'
            rw [hstep]
            exact not_lt.mp hs
      obtain ⟨m', hc', hm'le, hwin', hmin'⟩ := hexists
      simp only [scanRun, if_neg hs] at h1 h2
      rw [hc'] at h1 h2
      by_cases hbreak : (t0 : Int) - (m' : Int) = (w : Int) - 1
      · rw [if_pos hbreak] at h1 h2
        have hn1 : n1 = m' := by
          simp only at h1
          omega
        subst hn1
        exact hmin'
      · rw [if_neg hbreak] at h1 h2
        have hbound' : t0 - m' ≤ w - 1 := by
          rcases hc with ⟨rfl, _⟩ | ⟨m, heq, hm, hbound, _, _⟩
          · have : m' = t0 := by omega
            omega
          · have : m' = m := by omega
            omega
        refine ih (t0 + 1) (m' : Int) hrest.symm
          (Or.inr ⟨m', rfl, by omega, by omega, hwin', hmin'⟩) n1 h1 h2

/-- Top-level minimality for the scan as called by `first_fit`. -/
lemma scanRun_top_min (hgt : Int) (w : Nat) (hw : 1 ≤ w) (P : List Int) (n1 : Nat)
    (h1 : (scanRun hgt (w : Int) P 0 (-1) (-1)).1 = (n1 : Int))
    (h2 : 0 ≤ (scanRun hgt (w : Int) P 0 (-1) (-1)).2) :
    ∀ s : Nat, s < n1 → ¬ fits hgt w P s :=
  scanRun_min hgt w hw P P 0 (-1) (List.drop_zero P).symm
    (Or.inl ⟨rfl, fun s hs => absurd hs (by omega)⟩) n1 h1 h2

/-- Case analysis of one `first_fit` task step: either the task is left
unplaced and the profile untouched, or it is placed at a window `[n1, n2]`
of exactly `width` slots, each of capacity at least `height`, and the
profile is decreased by `height` on that window. -/
lemma ffStep_cases (P : List Int) (x : task) :
    ffStep P x = (((-1 : Int), (-1 : Int)), P) ∨
    ∃ n1 n2 : Nat,
      ffStep P x = (((n1 : Int), (n2 : Int)), applyWindow x.height (n1 : Int) (n2 : Int) P 0) ∧
      n1 ≤ n2 ∧ n2 < P.length ∧ (n2 : Int) = (n1 : Int) + x.width - 1 ∧
      ∀ j : Nat, n1 ≤ j → j ≤ n2 → x.height ≤ P.getD j 0 := by
  unfold ffStep
  by_cases hpl : (scanRun x.height x.width P 0 (-1) (-1)).1 ≠ -1 ∧
      (scanRun x.height x.width P 0 (-1) (-1)).2 ≠ -1
  · right
    rcases scanRun_snd_shape x.height x.width P 0 (-1) (-1) with hsh | ⟨n2, hn2⟩
    · exact absurd hsh hpl.2
    · obtain ⟨n1, h1, hle, hlt, heq, hwin⟩ := scanRun_top_sound _ _ _ _ hn2
      rw [if_pos hpl, h1, hn2]
      exact ⟨n1, n2, rfl, hle, hlt, heq, hwin⟩
  · left
    rw [if_neg hpl]

/-- One `first_fit` task step keeps a non-negative profile non-negative. -/
lemma ffStep_nonneg {P : List Int} (x : task) (hP : ∀ v ∈ P, 0 ≤ v) :
    ∀ v ∈ (ffStep P x).2, 0 ≤ v := by
  rcases ffStep_cases P x with h | ⟨n1, n2, h, hle, hlt, heq, hwin⟩
  · rw [h]
    exact hP
  · rw [h]
    apply forall_mem_of_getD
    intro j hj
    rw [applyWindow_length] at hj
    rw [applyWindow_getD _ _ _ _ _ _ hj]
    by_cases hcond : (n1 : Int) ≤ ((0 + j : Nat) : Int) ∧ ((0 + j : Nat) : Int) ≤ (n2 : Int)
    · rw [if_pos hcond]
      have hwj : x.height ≤ P.getD j 0 := by
        refine hwin j (by omega) (by omega)
      omega
    · rw [if_neg hcond]
      exact getD_nonneg_of_forall_mem hP j

/-- With `it_begin = 0` reassigned at the top of every task iteration,
`next_fit`'s wrap-around scan runs over the empty slice `P[:0]` and its
task step coincides with `first_fit`'s. -/
lemma nfStep_eq_ffStep (P : List Int) (x : task) : nfStep P x = ffStep P x := by
  unfold nfStep ffStep
  rcases h : scanRun x.height x.width P 0 (-1) (-1) with ⟨a, b⟩
  simp only [List.drop_zero, List.take_zero, h, scanRun]
  by_cases hab : a = -1 ∨ b = -1
  · rw [if_pos hab]
  · rw [if_neg hab]

lemma next_fit_eq_first_fit_aux (ts : List task) : ∀ P, next_fit ts P = first_fit ts P := by
  induction ts with
  | nil => intro P; rfl
  | cons x ts ih =>
    intro P
    simp only [next_fit, first_fit, nfStep_eq_ffStep, ih]

/-- The `(t1, t2)` run tracking of `best_fit`'s scan coincides with the
`first_fit` scan; the extra area bookkeeping never influences it. -/
lemma bfLoop_scan_eq (hgt w : Int) :
    ∀ (p : List Int) (t : Nat) (c curA maxA best : Int),
      ((bfLoop hgt w p t c curA maxA best).1, (bfLoop hgt w p t c curA maxA best).2.1)
        = scanRun hgt w p t c (-1) := by
  intro p
  induction p with
  | nil => intro t c curA maxA best; rfl
  | cons step rest ih =>
    intro t c curA maxA best
    by_cases hs : step < hgt
    · simp only [bfLoop, scanRun, if_pos hs]
      exact ih _ _ _ _ _
    · simp only [bfLoop, scanRun, if_neg hs]
      set c' : Int := if c = -1 then (t : Int) else c with hc'
      rcases lt_trichotomy ((t : Int) - c') (w - 1) with hlt | heq | hgt'
      · have hne : ¬((t : Int) - c' = w - 1) := by omega
        rw [if_pos hlt, if_neg hne]
        exact ih _ _ _ _ _
      · have hnl : ¬((t : Int) - c' < w - 1) := by omega
        rw [if_neg hnl, if_pos heq, if_pos heq]
      · have hnl : ¬((t : Int) - c' < w - 1) := by omega
        have hne : ¬((t : Int) - c' = w - 1) := by omega
        rw [if_neg hnl, if_neg hne, if_neg hne]
        exact ih _ _ _ _ _

/-- The heuristic `best_fit` mutates the profile exactly as `first_fit` does. -/
lemma bfStep_profile_eq (P : List Int) (x : task) : (bfStep P x).2 = (ffStep P x).2 := by
  unfold bfStep ffStep
  have hsc := bfLoop_scan_eq x.height x.width P 0 (-1) 0 0 (-1)
  rcases hb : bfLoop x.height x.width P 0 (-1) 0 0 (-1) with ⟨a, bc⟩
  rcases bc with ⟨b, c⟩
  rw [hb] at hsc
  rw [← hsc]
  by_cases h : a ≠ -1 ∧ b ≠ -1
  · rw [if_pos h, if_pos h]
  · rw [if_neg h, if_neg h]

/-- The placement record of one `best_fit` task step is either the sentinel
pair or of the form `(best_pos, best_pos + width - 1)`. -/
lemma bfStep_record_shape (P : List Int) (x : task) :
    (bfStep P x).1 = ((-1 : Int), (-1 : Int)) ∨
    ∃ b : Int, (bfStep P x).1 = (b, b + x.width - 1) := by
  unfold bfStep
  by_cases h : (bfLoop x.height x.width P 0 (-1) 0 0 (-1)).1 ≠ -1 ∧
      (bfLoop x.height x.width P 0 (-1) 0 0 (-1)).2.1 ≠ -1
  · rw [if_pos h]
    right
    exact ⟨_, rfl⟩
  · rw [if_neg h]
    left
    rfl

/-- The placement record of one `first_fit` task step is either the sentinel
pair or of the form `(n1, n1 + width - 1)`. -/
lemma ffStep_record_shape (P : List Int) (x : task) :
    (ffStep P x).1 = ((-1 : Int), (-1 : Int)) ∨
    ∃ b : Int, (ffStep P x).1 = (b, b + x.width - 1) := by
  rcases ffStep_cases P x with h | ⟨n1, n2, h, _, _, heq, _⟩
  · left
    rw [h]
  · right
    refine ⟨(n1 : Int), ?_⟩
    rw [h, ← heq]

/-- Generic driver fact: a task-loop driver built from a step function whose
placement records have the `(b, b + width - 1)` shape yields, at every index,
a record satisfying `end - start + 1 = width` whenever both components differ
from the sentinel. -/
lemma driver_record_width
    (stepf : List Int → task → (Int × Int) × List Int)
    (driver : List task → List Int → List (Int × Int) × List Int)
    (hshape : ∀ P x, (stepf P x).1 = ((-1 : Int), (-1 : Int)) ∨
      ∃ b : Int, (stepf P x).1 = (b, b + x.width - 1))
    (_hnil : ∀ P, driver [] P = ([], P))
    (hcons : ∀ x ts P, driver (x :: ts) P =
      ((stepf P x).1 :: (driver ts (stepf P x).2).1, (driver ts (stepf P x).2).2)) :
    ∀ (ts : List task) (P : List Int) (i : Nat), i < ts.length →
      ((driver ts P).1.getD i ((-1 : Int), (-1 : Int))).1 ≠ -1 →
      ((driver ts P).1.getD i ((-1 : Int), (-1 : Int))).2 ≠ -1 →
      ((driver ts P).1.getD i ((-1 : Int), (-1 : Int))).2
        - ((driver ts P).1.getD i ((-1 : Int), (-1 : Int))).1 + 1
        = (ts.getD i ⟨0, 0⟩).width := by
  intro ts
  induction ts with
  | nil => intro P i hi; simp at hi
  | cons x ts ih =>
    intro P i hi h1 h2
    rw [hcons] at h1 h2 ⊢
    cases i with
    | zero =>
      simp only [List.getD_cons_zero, List.getD_cons_zero] at h1 h2 ⊢
      rcases hshape P x with hsh | ⟨b, hsh⟩
      · rw [hsh] at h1
        simp at h1
      · rw [hsh]
        ring
    | succ k =>
      simp only [List.getD_cons_succ] at h1 h2 ⊢
      exact ih (stepf P x).2 k (by simpa using hi) h1 h2

/-- Generic driver fact: a step function that preserves non-negativity of the
profile gives a driver that does. -/
lemma driver_nonneg
    (stepf : List Int → task → (Int × Int) × List Int)
    (driver : List task → List Int → List (Int × Int) × List Int)
    (hstep : ∀ P x, (∀ v ∈ P, 0 ≤ v) → ∀ v ∈ (stepf P x).2, 0 ≤ v)
    (hnil : ∀ P, driver [] P = ([], P))
    (hcons : ∀ x ts P, driver (x :: ts) P =
      ((stepf P x).1 :: (driver ts (stepf P x).2).1, (driver ts (stepf P x).2).2)) :
    ∀ (ts : List task) (P : List Int), (∀ v ∈ P, 0 ≤ v) →
      ∀ v ∈ (driver ts P).2, 0 ≤ v := by
  intro ts
  induction ts with
  | nil =>
    intro P hP
    rw [hnil]
    exact hP
  | cons x ts ih =>
    intro P hP
    rw [hcons]
    exact ih _ (hstep P x hP)

lemma slackFrom_nonneg (hgt : Int) (P : List Int) (m : Nat) :
    ∀ k : Nat, (∀ i : Nat, i < k → hgt ≤ P.getD (m + i) 0) → 0 ≤ slackFrom hgt P m k := by
  intro k
  induction k with
  | zero => intro _; simp [slackFrom]
  | succ n ih =>
    intro h
    have h1 := ih (fun i hi => h i (by omega))
    have h2 := h n (by omega)
    simp only [slackFrom]
    omega

lemma slackFrom_pos (hgt : Int) (P : List Int) (m : Nat) :
    ∀ k : Nat, (∀ i : Nat, i < k → hgt ≤ P.getD (m + i) 0) →
      ∀ i0 : Nat, i0 < k → hgt < P.getD (m + i0) 0 → 0 < slackFrom hgt P m k := by
  intro k
  induction k with
  | zero => intro _ i0 h; omega
  | succ n ih =>
    intro h i0 hi0 hlt
    have hnn := slackFrom_nonneg hgt P m n (fun i hi => h i (by omega))
    simp only [slackFrom]
    rcases Nat.lt_or_ge i0 n with hin | hin
    · have hp := ih (fun i hi => h i (by omega)) i0 hin hlt
      have h2 := h n (by omega)
      omega
    · have hi0n : i0 = n := by omega
      subst hi0n
      omega

lemma slackFrom_eq_zero_of_all (hgt : Int) (P : List Int) (m : Nat) :
    ∀ k : Nat, (∀ i : Nat, i < k → P.getD (m + i) 0 = hgt) → slackFrom hgt P m k = 0 := by
  intro k
  induction k with
  | zero => intro _; rfl
  | succ n ih =>
    intro h
    have h1 := ih (fun i hi => h i (by omega))
    have h2 := h n (by omega)
    simp only [slackFrom]
    omega

/-- For a non-positive width the `best_fit` scan never breaks: `t2` stays
`-1`. -/
lemma bfLoop_no_break (hgt w : Int) (hw : w ≤ 0) :
    ∀ (p : List Int) (t : Nat) (c curA maxA best : Int),
      (c = -1 ∨ (0 ≤ c ∧ c ≤ (t : Int))) →
      (bfLoop hgt w p t c curA maxA best).2.1 = -1 := by
  intro p
  induction p with
  | nil => intro t c curA maxA best hc; rfl
  | cons step rest ih =>
    intro t c curA maxA best hc
    by_cases hs : step < hgt
    · simp only [bfLoop, if_pos hs]
      exact ih _ _ _ _ _ (Or.inl rfl)
    · simp only [bfLoop, if_neg hs]
      set c' : Int := if c = -1 then (t : Int) else c with hc'
      have hcb : 0 ≤ c' ∧ c' ≤ (t : Int) := by
        rw [hc']
        by_cases h : c = -1
        · rw [if_pos h]
          omega
        · rw [if_neg h]
          rcases hc with rfl | hb
          · exact absurd rfl h
          · exact hb
      have hnl : ¬((t : Int) - c' < w - 1) := by omega
      have hne : ¬((t : Int) - c' = w - 1) := by omega
      rw [if_neg hnl, if_neg hne]
      exact ih _ _ _ _ _ (Or.inr ⟨hcb.1, by omega⟩)

/-- Characterization of `best_pos` at a break of the `best_fit` scan (as
called by `best_fit`, with `max_area = 0` and `best_pos = -1`): the break
window starts at `n1` and ends at `n2`, and `best_pos` is `n1` exactly when
the accumulated `cur_area` — which double-counts the slack of the first
window slot — is positive, and the sentinel `-1` otherwise. -/
lemma bfLoop_break (hgt w : Int) (P : List Int) :
    ∀ (p : List Int) (t0 : Nat) (c curA : Int), p = P.drop t0 →
      ((c = -1 ∧ curA = 0) ∨
       (∃ m : Nat, c = (m : Int) ∧ m ≤ t0 ∧ (t0 : Int) - (m : Int) ≤ w - 1 ∧
         curA = (P.getD m 0 - hgt) + slackFrom hgt P m (t0 - m))) →
      ∀ n2 : Nat, (bfLoop hgt w p t0 c curA 0 (-1)).2.1 = (n2 : Int) →
      ∃ n1 : Nat, (bfLoop hgt w p t0 c curA 0 (-1)).1 = (n1 : Int) ∧
        (bfLoop hgt w p t0 c curA 0 (-1)).2.2 =
          (if 0 < (P.getD n1 0 - hgt) + slackFrom hgt P n1 (n2 + 1 - n1)
           then (n1 : Int) else -1) := by
  intro p
  induction p with
  | nil =>
    intro t0 c curA hp hinv n2 h2
    simp only [bfLoop] at h2
    exact absurd h2 (by omega)
  | cons step rest ih =>
    intro t0 c curA hp hinv n2 h2
    obtain ⟨hstep, hrest, hlen⟩ := drop_cons_facts hp.symm
    by_cases hs : step < hgt
    · simp only [bfLoop, if_pos hs] at h2 ⊢
      exact ih (t0 + 1) (-1) 0 hrest.symm (Or.inl ⟨rfl, rfl⟩) n2 h2
    · have hexists : ∃ m' : Nat, (if c = -1 then (t0 : Int) else c) = (m' : Int) ∧
          m' ≤ t0 ∧ (if c = -1 then curA + (step - hgt) else curA)
            = (P.getD m' 0 - hgt) + slackFrom hgt P m' (t0 - m') := by
        rcases hinv with ⟨rfl, rfl⟩ | ⟨m, rfl, hm, hbound, hcur⟩
        · refine ⟨t0, by simp, le_refl _, ?_⟩
          rw [if_pos rfl, hstep]
          simp [slackFrom]
        · refine ⟨m, by rw [if_neg (by omega)], hm, ?_⟩
          rw [if_neg (by omega)]
          exact hcur
      obtain ⟨m', hc', hm'le, hcur'⟩ := hexists
      simp only [bfLoop, if_neg hs] at h2 ⊢
      rw [hc'] at h2 ⊢
      rw [hcur'] at h2 ⊢
      rcases lt_trichotomy ((t0 : Int) - (m' : Int)) (w - 1) with hlt | heq | hgt'
      · have hne : ¬((t0 : Int) - (m' : Int) = w - 1) := by omega
        rw [if_pos hlt] at h2 ⊢
        have hnext : (P.getD m' 0 - hgt) + slackFrom hgt P m' (t0 - m') + (step - hgt)
            = (P.getD m' 0 - hgt) + slackFrom hgt P m' ((t0 + 1) - m') := by
          have hk : (t0 + 1) - m' = (t0 - m') + 1 := by omega
          rw [hk]
          simp only [slackFrom]
          have hidx : m' + (t0 - m') = t0 := by omega
          rw [hidx, hstep]
          ring
        rw [hnext] at h2 ⊢
        exact ih (t0 + 1) (m' : Int)
          ((P.getD m' 0 - hgt) + slackFrom hgt P m' ((t0 + 1) - m'))
          hrest.symm (Or.inr ⟨m', rfl, by omega, by omega, rfl⟩) n2 h2
      · have hnl : ¬((t0 : Int) - (m' : Int) < w - 1) := by omega
        rw [if_neg hnl, if_pos heq] at h2 ⊢
        have hn2 : n2 = t0 := by
          simp only at h2
          omega
        refine ⟨m', rfl, ?_⟩
        have hcur2 : (P.getD m' 0 - hgt) + slackFrom hgt P m' (t0 - m') + (step - hgt)
            = (P.getD m' 0 - hgt) + slackFrom hgt P m' (n2 + 1 - m') := by
          have hk : n2 + 1 - m' = (t0 - m') + 1 := by omega
          rw [hk]
          simp only [slackFrom]
          have hidx : m' + (t0 - m') = t0 := by omega
          rw [hidx, hstep]
          ring
        rw [hcur2]
      · rcases hinv with ⟨rfl, rfl⟩ | ⟨m, hceq, hm, hbound, hcur⟩
        · -- fresh run with `t0 - t0 = 0 > w - 1`, so `w ≤ 0`: the scan never breaks
          have hm0 : (t0 : Int) = (m' : Int) := by
            rw [if_pos rfl] at hc'
            exact hc'
          have hw : w ≤ 0 := by omega
          have hnb := bfLoop_no_break hgt w hw rest (t0 + 1) (m' : Int)
            ((P.getD m' 0 - hgt) + slackFrom hgt P m' (t0 - m')) 0 (-1)
            (Or.inr ⟨by omega, by omega⟩)
          have hnl : ¬((t0 : Int) - (m' : Int) < w - 1) := by omega
          have hne : ¬((t0 : Int) - (m' : Int) = w - 1) := by omega
          rw [if_neg hnl, if_neg hne] at h2
          rw [hnb] at h2
          exact absurd h2 (by omega)
        · -- carried run: the bound `t0 - m ≤ w - 1` rules this branch out
          exfalso
          have hc'' := hc'
          rw [hceq, if_neg (show ¬((m : Int) = -1) by omega)] at hc''
          omega

/-- When one `first_fit` task step records a placement `(n1, n2)`, those are
the scan's results and the profile is the window subtraction; the window is
sound. -/
lemma ffStep_placed (P : List Int) (x : task) (n1 n2 : Nat)
    (h : (ffStep P x).1 = ((n1 : Int), (n2 : Int))) :
    (scanRun x.height x.width P 0 (-1) (-1)).1 = (n1 : Int) ∧
    (scanRun x.height x.width P 0 (-1) (-1)).2 = (n2 : Int) ∧
    n1 ≤ n2 ∧ n2 < P.length ∧ (n2 : Int) = (n1 : Int) + x.width - 1 ∧
    (∀ j : Nat, n1 ≤ j → j ≤ n2 → x.height ≤ P.getD j 0) ∧
    (ffStep P x).2 = applyWindow x.height (n1 : Int) (n2 : Int) P 0 := by
  by_cases hpl : (scanRun x.height x.width P 0 (-1) (-1)).1 ≠ -1 ∧
      (scanRun x.height x.width P 0 (-1) (-1)).2 ≠ -1
  · have hff : ffStep P x =
        (((scanRun x.height x.width P 0 (-1) (-1)).1,
          (scanRun x.height x.width P 0 (-1) (-1)).2),
         applyWindow x.height (scanRun x.height x.width P 0 (-1) (-1)).1
           (scanRun x.height x.width P 0 (-1) (-1)).2 P 0) := by
      unfold ffStep
      rw [if_pos hpl]
    rw [hff] at h
    have h1 : (scanRun x.height x.width P 0 (-1) (-1)).1 = (n1 : Int) :=
      congrArg Prod.fst h
    have h2 : (scanRun x.height x.width P 0 (-1) (-1)).2 = (n2 : Int) :=
      congrArg Prod.snd h
    obtain ⟨n1', h1', hle, hlt, heq, hwin⟩ := scanRun_top_sound _ _ _ _ h2
    have hn : n1' = n1 := by
      rw [h1'] at h1
      omega
    subst hn
    refine ⟨h1, h2, hle, hlt, heq, hwin, ?_⟩
    rw [hff, h1, h2]
  · exfalso
    have hff : (ffStep P x).1 = ((-1 : Int), (-1 : Int)) := by
      unfold ffStep
      rw [if_neg hpl]
    rw [hff] at h
    have h1 : (-1 : Int) = (n1 : Int) := congrArg Prod.fst h
    omega

/-- Placement record of one `best_fit` task step when the scan breaks at the
window `[n1, n2]`: `(n1, n1 + width - 1)` when the window's accumulated
`cur_area` (which double-counts the first slot's slack) is positive, and
`(-1, -1 + width - 1)` otherwise. -/
lemma bfStep_record (P : List Int) (x : task) (n1 n2 : Nat)
    (h1 : (scanRun x.height x.width P 0 (-1) (-1)).1 = (n1 : Int))
    (h2 : (scanRun x.height x.width P 0 (-1) (-1)).2 = (n2 : Int)) :
    (bfStep P x).1 =
      (if 0 < (P.getD n1 0 - x.height) + slackFrom x.height P n1 (n2 + 1 - n1)
       then ((n1 : Int), (n1 : Int) + x.width - 1)
       else ((-1 : Int), -1 + x.width - 1)) := by
  have hsc := bfLoop_scan_eq x.height x.width P 0 (-1) 0 0 (-1)
  have hb1 : (bfLoop x.height x.width P 0 (-1) 0 0 (-1)).1
      = (scanRun x.height x.width P 0 (-1) (-1)).1 := congrArg Prod.fst hsc
  have hb2 : (bfLoop x.height x.width P 0 (-1) 0 0 (-1)).2.1
      = (scanRun x.height x.width P 0 (-1) (-1)).2 := congrArg Prod.snd hsc
  rw [h1] at hb1
  rw [h2] at hb2
  obtain ⟨n1', hbn1, hbest⟩ := bfLoop_break x.height x.width P P 0 (-1) 0
    (List.drop_zero P).symm (Or.inl ⟨rfl, rfl⟩) n2 hb2
  have he : (n1' : Int) = (n1 : Int) := by
    rw [← hbn1]
    exact hb1
  have hn : n1 = n1' := by omega
  subst hn
  have hcond : (bfLoop x.height x.width P 0 (-1) 0 0 (-1)).1 ≠ -1 ∧
      (bfLoop x.height x.width P 0 (-1) 0 0 (-1)).2.1 ≠ -1 := by
    constructor
    · rw [hb1]
      omega
    · rw [hb2]
      omega
  unfold bfStep
  rw [if_pos hcond, hbest]
  by_cases hpos : 0 < (P.getD n1 0 - x.height) + slackFrom x.height P n1 (n2 + 1 - n1)
  · rw [if_pos hpos, if_pos hpos]
  · rw [if_neg hpos, if_neg hpos]

/-- For a non-positive width the `first_fit`/`next_fit` scan never breaks. -/
lemma scanRun_no_break (hgt w : Int) (hw : w ≤ 0) :
    ∀ (p : List Int) (t : Nat) (c : Int), (c = -1 ∨ (0 ≤ c ∧ c ≤ (t : Int))) →
      (scanRun hgt w p t c (-1)).2 = -1 := by
  intro p
  induction p with
  | nil => intro t c hc; rfl
  | cons step rest ih =>
    intro t c hc
    by_cases hs : step < hgt
    · simp only [scanRun, if_pos hs]
      exact ih _ _ (Or.inl rfl)
    · simp only [scanRun, if_neg hs]
      set c' : Int := if c = -1 then (t : Int) else c with hc'
      have hcb : 0 ≤ c' ∧ c' ≤ (t : Int) := by
        rw [hc']
        by_cases h : c = -1
        · rw [if_pos h]
          omega
        · rw [if_neg h]
          rcases hc with rfl | hb
          · exact absurd rfl h
          · exact hb
      have hne : ¬((t : Int) - c' = w - 1) := by omega
      rw [if_neg hne]
      exact ih _ _ (Or.inr ⟨hcb.1, by omega⟩)

lemma best_fit_profile_eq_aux (ts : List task) :
    ∀ P : List Int, (best_fit ts P).2 = (first_fit ts P).2 := by
  induction ts with
  | nil => intro P; rfl
  | cons x ts ih =>
    intro P
    simp only [best_fit, first_fit]
    rw [bfStep_profile_eq]
    exact ih _

/-- Claim C10: `next_fit` is extensionally equal to `first_fit`.  The scan
start position is re-initialized to 0 for each task, so the wrap-around scan
iterates over an empty slice and the trailing cursor update is dead: both
heuristics produce identical placement states for every task and an
identical final capacity profile. -/
theorem next_fit_extensionally_first_fit (ts : List task) (P : List Int) :
    next_fit ts P = first_fit ts P :=
  next_fit_eq_first_fit_aux ts P

/-- Claim C3: for every task list and every capacity profile whose entries
are all non-negative, after running any of the three heuristics every slot
of the mutated capacity profile is still non-negative. -/
theorem alloc_profiles_stay_nonneg (ts : List task) (P : List Int)
    (hP : ∀ v ∈ P, 0 ≤ v) :
    (∀ v ∈ (first_fit ts P).2, 0 ≤ v) ∧ (∀ v ∈ (next_fit ts P).2, 0 ≤ v) ∧
    (∀ v ∈ (best_fit ts P).2, 0 ≤ v) := by
  have hff := driver_nonneg ffStep first_fit (fun Q x hQ => ffStep_nonneg x hQ)
    (fun _ => rfl) (fun _ _ _ => rfl) ts P hP
  refine ⟨hff, ?_, ?_⟩
  · rw [next_fit_eq_first_fit_aux]
    exact hff
  · exact driver_nonneg bfStep best_fit
      (fun Q x hQ => by rw [bfStep_profile_eq]; exact ffStep_nonneg x hQ)
      (fun _ => rfl) (fun _ _ _ => rfl) ts P hP

theorem alloc_profiles_stay_nonneg_witness :
    0 ≤ ((first_fit [⟨3, 5⟩] [5, 5, 5, 0, 0, 5, 5, 5]).2.getD 0 0) :=
  (alloc_profiles_stay_nonneg [⟨3, 5⟩] [5, 5, 5, 0, 0, 5, 5, 5] (by decide)).1 _
    (by decide)

/-- Claim C4: after any of the three heuristics, every task whose recorded
placement has both `start_time` and `end_time` different from the unplaced
sentinel `-1` satisfies `end_time - start_time + 1 = width`. -/
theorem placed_tasks_have_exact_width (ts : List task) (P : List Int) (i : Nat)
    (hi : i < ts.length) :
    ((((first_fit ts P).1.getD i ((-1 : Int), (-1 : Int))).1 ≠ -1 →
      ((first_fit ts P).1.getD i ((-1 : Int), (-1 : Int))).2 ≠ -1 →
      ((first_fit ts P).1.getD i ((-1 : Int), (-1 : Int))).2
        - ((first_fit ts P).1.getD i ((-1 : Int), (-1 : Int))).1 + 1
        = (ts.getD i ⟨0, 0⟩).width) ∧
     (((next_fit ts P).1.getD i ((-1 : Int), (-1 : Int))).1 ≠ -1 →
      ((next_fit ts P).1.getD i ((-1 : Int), (-1 : Int))).2 ≠ -1 →
      ((next_fit ts P).1.getD i ((-1 : Int), (-1 : Int))).2
        - ((next_fit ts P).1.getD i ((-1 : Int), (-1 : Int))).1 + 1
        = (ts.getD i ⟨0, 0⟩).width) ∧
     (((best_fit ts P).1.getD i ((-1 : Int), (-1 : Int))).1 ≠ -1 →
      ((best_fit ts P).1.getD i ((-1 : Int), (-1 : Int))).2 ≠ -1 →
      ((best_fit ts P).1.getD i ((-1 : Int), (-1 : Int))).2
        - ((best_fit ts P).1.getD i ((-1 : Int), (-1 : Int))).1 + 1
        = (ts.getD i ⟨0, 0⟩).width)) := by
  refine ⟨?_, ?_, ?_⟩
  · exact driver_record_width ffStep first_fit ffStep_record_shape
      (fun _ => rfl) (fun _ _ _ => rfl) ts P i hi
  · intro h1 h2
    rw [next_fit_eq_first_fit_aux] at h1 h2 ⊢
    exact driver_record_width ffStep first_fit ffStep_record_shape
      (fun _ => rfl) (fun _ _ _ => rfl) ts P i hi h1 h2
  · exact driver_record_width bfStep best_fit bfStep_record_shape
      (fun _ => rfl) (fun _ _ _ => rfl) ts P i hi

theorem placed_tasks_have_exact_width_witness :
    ((first_fit [⟨3, 5⟩] [5, 5, 5, 0, 0, 5, 5, 5]).1.getD 0 ((-1 : Int), (-1 : Int))).2
      - ((first_fit [⟨3, 5⟩] [5, 5, 5, 0, 0, 5, 5, 5]).1.getD 0 ((-1 : Int), (-1 : Int))).1
      + 1 = (([⟨3, 5⟩] : List task).getD 0 ⟨0, 0⟩).width :=
  (placed_tasks_have_exact_width [⟨3, 5⟩] [5, 5, 5, 0, 0, 5, 5, 5] 0 (by decide)).1
    (by decide) (by decide)

/-- Claim C2 (failing input): `next_fit` re-initializes its scan cursor to 0
at the top of every task iteration, so the cursor is never carried across
tasks.  On profile `[10, 5, 5, 5]` with two tasks of width 1 and height 5,
a persistent cursor (advanced to slot 1 after placing the first task at
slot 0) would place the second task at slot 1; the code rescans from slot 0
and places it at slot 0 again. -/
theorem next_fit_cursor_reset_observed :
    next_fit [⟨1, 5⟩, ⟨1, 5⟩] [10, 5, 5, 5]
      = ([((0 : Int), (0 : Int)), ((0 : Int), (0 : Int))], [0, 5, 5, 5]) := by decide

/-- Claim C9 (failing input): the reference sorts ascending (Python
`list.sort` with a key and no `reverse=True`), not descending: on two tasks
with widths 1 and 2, heights 7 and 9, areas 7 and 18, each of the three key
sorts keeps the ascending order, while a descending sort would reverse it. -/
theorem sorts_are_ascending_observed :
    sortTasks sort_by_width [⟨1, 7⟩, ⟨2, 9⟩] = [⟨1, 7⟩, ⟨2, 9⟩] ∧
    sortTasks sort_by_height [⟨1, 7⟩, ⟨2, 9⟩] = [⟨1, 7⟩, ⟨2, 9⟩] ∧
    sortTasks sort_by_area [⟨1, 7⟩, ⟨2, 9⟩] = [⟨1, 7⟩, ⟨2, 9⟩] ∧
    ([⟨1, 7⟩, ⟨2, 9⟩] : List task) ≠ [⟨2, 9⟩, ⟨1, 7⟩] :=
  ⟨by decide, by decide, by decide, by decide⟩

/-- Claim C7 (counterexample): an invalid configuration — here a task with
negative power draw — is processed without any failure and the profile is
mutated (the entry grows from 5 to 8), contradicting fail-fast-before-
mutation. -/
theorem invalid_config_mutates_profile :
    first_fit [⟨1, -3⟩] [5] = ([((0 : Int), (0 : Int))], [8]) ∧
    ([8] : List Int) ≠ [5] :=
  ⟨by decide, by decide⟩

/-- Claim C7 (amended): the reference performs no validation at all — the
heuristics silently process every configuration: a task with negative power
draw can be placed (increasing profile entries), a task with non-positive
duration is scanned and left unplaced with the profile untouched, an empty
profile leaves every task unplaced with no failure, and an empty task list
is a no-op; `next_fit` behaves as `first_fit` throughout. -/
theorem allocate_performs_no_validation :
    (first_fit [⟨1, -3⟩] [5] = ([((0 : Int), (0 : Int))], [8])) ∧
    (∀ (P : List Int) (x : task), x.width ≤ 0 →
      ffStep P x = (((-1 : Int), (-1 : Int)), P)) ∧
    (∀ ts : List task,
      first_fit ts [] = (ts.map (fun _ => ((-1 : Int), (-1 : Int))), [])) ∧
    (∀ P : List Int, first_fit [] P = ([], P)) ∧
    (∀ (ts : List task) (P : List Int), next_fit ts P = first_fit ts P) := by
  refine ⟨by decide, ?_, ?_, fun P => rfl, next_fit_eq_first_fit_aux⟩
  · intro P x hw
    have hnb := scanRun_no_break x.height x.width hw P 0 (-1) (Or.inl rfl)
    unfold ffStep
    rw [if_neg (fun hc => hc.2 hnb)]
  · intro ts
    induction ts with
    | nil => rfl
    | cons x ts ih =>
      have hstep : ffStep [] x = (((-1 : Int), (-1 : Int)), ([] : List Int)) := rfl
      simp only [first_fit, hstep, List.map_cons]
      rw [ih]

theorem allocate_performs_no_validation_witness :
    ffStep [5] ⟨0, 2⟩ = (((-1 : Int), (-1 : Int)), [5]) :=
  allocate_performs_no_validation.2.1 [5] ⟨0, 2⟩ (by decide)

/-- Claim C8 (counterexample): with an empty task batch and an empty
profile, both `total_area` and `original_energy` are zero and the efficacy
computation reaches the division with denominator `min 0 0 = 0`: it has no
value (the embedded `none`, a `ZeroDivisionError` under Python's exact
integer semantics) — no explicit undefined/NaN value is reported. -/
theorem efficacy_both_zero_fails :
    run_trial first_fit [] [] = none ∧
    total_area [] = 0 ∧ List.sum ([] : List Int) = 0 :=
  ⟨rfl, rfl, rfl⟩

/-- Claim C8 (amended): the efficacy computation applies the division with
no zero guard: it fails (has no value) exactly when
`min(total_area, original_energy)` is zero — in particular when both
quantities are zero — and it never reports an explicit undefined/NaN value
or a silent zero in that degenerate case. -/
theorem efficacy_division_unguarded
    (heuristic : List task → List Int → List (Int × Int) × List Int) :
    (run_trial heuristic [] [] = none) ∧
    (∀ (ts : List task) (P : List Int),
      run_trial heuristic ts P = none ↔ min (total_area ts) P.sum = 0) := by
  constructor
  · rfl
  · intro ts P
    unfold run_trial efficacy_value
    by_cases h : min (total_area ts) P.sum = 0
    · rw [if_pos h]
      simpa using h
    · rw [if_neg h]
      simpa using h

/-- Claim C5: first-fit assigns each task the earliest-starting window of
exactly `width` consecutive slots in which every slot's remaining capacity
is at least the task's power draw — it accepts the window the instant a
feasible run reaches the required length, so any placement `(s, e)` starts
at the least feasible start and has `e = s + width - 1`; in particular on
profile `[5,5,5,0,0,5,5,5]` a single task of width 3 and height 5 is placed
at `(0, 2)` leaving `[0,0,0,0,0,5,5,5]`. -/
theorem first_fit_earliest_window :
    (∀ (P : List Int) (x : task) (w : Nat) (s e : Int), x.width = (w : Int) → 1 ≤ w →
      (ffStep P x).1 = (s, e) → s ≠ -1 →
      ∃ n1 : Nat, s = (n1 : Int) ∧ e = (n1 : Int) + x.width - 1 ∧
        fits x.height w P n1 ∧ ∀ s' : Nat, s' < n1 → ¬ fits x.height w P s') ∧
    first_fit [⟨3, 5⟩] [5, 5, 5, 0, 0, 5, 5, 5]
      = ([((0 : Int), (2 : Int))], [0, 0, 0, 0, 0, 5, 5, 5]) := by
  constructor
  · intro P x w s e hxw hw h hs
    rcases ffStep_cases P x with hc | ⟨n1, n2, hc, hle, hlt, heq, hwin⟩
    · exfalso
      rw [hc] at h
      have h1 : (-1 : Int) = s := congrArg Prod.fst h
      exact hs h1.symm
    · have hrec : (ffStep P x).1 = ((n1 : Int), (n2 : Int)) := by rw [hc]
      rw [hrec] at h
      have hs1 : (n1 : Int) = s := congrArg Prod.fst h
      have hs2 : (n2 : Int) = e := congrArg Prod.snd h
      rw [hxw] at heq
      obtain ⟨h1', h2', _, _, _, _, _⟩ := ffStep_placed P x n1 n2 hrec
      rw [hxw] at h1' h2'
      have hmin := scanRun_top_min x.height w hw P n1 h1' (by rw [h2']; omega)
      refine ⟨n1, hs1.symm, ?_, ⟨by omega, ?_⟩, hmin⟩
      · rw [← hs2, hxw]
        omega
      · intro i hi
        exact hwin (n1 + i) (by omega) (by omega)
  · decide

theorem first_fit_earliest_window_witness :
    ∃ n1 : Nat, (0 : Int) = (n1 : Int) ∧
      (2 : Int) = (n1 : Int) + (⟨3, 5⟩ : task).width - 1 ∧
      fits (⟨3, 5⟩ : task).height 3 [5, 5, 5, 0, 0, 5, 5, 5] n1 ∧
      ∀ s' : Nat, s' < n1 → ¬ fits (⟨3, 5⟩ : task).height 3 [5, 5, 5, 0, 0, 5, 5, 5] s' :=
  first_fit_earliest_window.1 [5, 5, 5, 0, 0, 5, 5, 5] ⟨3, 5⟩ 3 0 2 rfl (by decide)
    (by decide) (by decide)

/-- Claim C6: when no feasible window exists for a task, its placement state
keeps the sentinel `(-1, -1)`, the capacity profile is left unchanged by
that task, and the allocation proceeds normally to the next task; in
particular on `[3,3,3,3]` a task of width 2 and height 5 stays unplaced with
the profile unchanged. -/
theorem infeasible_task_left_unplaced :
    (∀ (P : List Int) (x : task) (ts : List task) (w : Nat),
      x.width = (w : Int) → 1 ≤ w →
      (∀ s : Nat, s < P.length → ¬ fits x.height w P s) →
      ffStep P x = (((-1 : Int), (-1 : Int)), P) ∧
      first_fit (x :: ts) P
        = (((-1 : Int), (-1 : Int)) :: (first_fit ts P).1, (first_fit ts P).2)) ∧
    first_fit [⟨2, 5⟩] [3, 3, 3, 3] = ([((-1 : Int), (-1 : Int))], [3, 3, 3, 3]) := by
  constructor
  · intro P x ts w hxw hw hnof
    have hstep : ffStep P x = (((-1 : Int), (-1 : Int)), P) := by
      rcases ffStep_cases P x with hc | ⟨n1, n2, hc, hle, hlt, heq, hwin⟩
      · exact hc
      · exfalso
        rw [hxw] at heq
        apply hnof n1 (by omega)
        refine ⟨by omega, ?_⟩
        intro i hi
        exact hwin (n1 + i) (by omega) (by omega)
    refine ⟨hstep, ?_⟩
    simp only [first_fit, hstep]
  · decide

theorem infeasible_task_left_unplaced_witness :
    ffStep [3, 3, 3, 3] ⟨2, 5⟩ = (((-1 : Int), (-1 : Int)), [3, 3, 3, 3]) ∧
    first_fit [⟨2, 5⟩] [3, 3, 3, 3]
      = (((-1 : Int), (-1 : Int)) :: (first_fit [] [3, 3, 3, 3]).1,
         (first_fit [] [3, 3, 3, 3]).2) :=
  infeasible_task_left_unplaced.1 [3, 3, 3, 3] ⟨2, 5⟩ [] 2 rfl (by decide) (by decide)

/-- Claim C1 (counterexample): on profile `[5, 5]` with a single task of
width 2 and height 5 (a feasible window of zero slack), `best_fit` subtracts
over the window exactly like `first_fit` but records the placement state
`(-1, 0)` instead of `first_fit`'s `(0, 1)`: the reference best-fit does not
record the same start/end placement state as first-fit. -/
theorem best_fit_zero_slack_differs :
    best_fit [⟨2, 5⟩] [5, 5] = ([((-1 : Int), (0 : Int))], [0, 0]) ∧
    first_fit [⟨2, 5⟩] [5, 5] = ([((0 : Int), (1 : Int))], [0, 0]) ∧
    ((-1 : Int), (0 : Int)) ≠ ((0 : Int), (1 : Int)) :=
  ⟨by decide, by decide, by decide⟩

/-- Claim C1 (amended): the reference best-fit always chooses the same
window as first-fit (the first feasible one — it never skips a feasible
window) and always produces the same mutated profile; it also records the
same start/end placement state whenever the chosen window has strictly
positive slack in some slot (and when the task is unplaced).  Only when
every slot of the chosen window equals the power draw exactly does the
recorded state differ: the profile is still mutated identically, but the
record becomes `(-1, width - 2)` instead of first-fit's window. -/
theorem best_fit_refines_first_fit :
    (∀ (ts : List task) (P : List Int), (best_fit ts P).2 = (first_fit ts P).2) ∧
    (∀ (P : List Int) (x : task) (n1 n2 : Nat),
      (ffStep P x).1 = ((n1 : Int), (n2 : Int)) →
      (∃ j : Nat, n1 ≤ j ∧ j ≤ n2 ∧ x.height < P.getD j 0) →
      bfStep P x = ffStep P x) ∧
    (∀ (P : List Int) (x : task),
      (ffStep P x).1 = ((-1 : Int), (-1 : Int)) → bfStep P x = ffStep P x) ∧
    (∀ (P : List Int) (x : task) (n1 n2 : Nat),
      (ffStep P x).1 = ((n1 : Int), (n2 : Int)) →
      (∀ j : Nat, n1 ≤ j → j ≤ n2 → P.getD j 0 = x.height) →
      (bfStep P x).1 = ((-1 : Int), x.width - 2) ∧
      (bfStep P x).2 = (ffStep P x).2) := by
  refine ⟨best_fit_profile_eq_aux, ?_, ?_, ?_⟩
  · intro P x n1 n2 h hex
    obtain ⟨h1, h2, hle, hlt, heq, hwin, _⟩ := ffStep_placed P x n1 n2 h
    obtain ⟨j, hj1, hj2, hjlt⟩ := hex
    have hallge : ∀ i : Nat, i < n2 + 1 - n1 → x.height ≤ P.getD (n1 + i) 0 :=
      fun i hi => hwin (n1 + i) (by omega) (by omega)
    have hpos : 0 < (P.getD n1 0 - x.height) + slackFrom x.height P n1 (n2 + 1 - n1) := by
      have hsp := slackFrom_pos x.height P n1 (n2 + 1 - n1) hallge (j - n1)
        (by omega) (by rw [show n1 + (j - n1) = j by omega]; exact hjlt)
      have hfirst := hwin n1 (by omega) (by omega)
      omega
    have hrec := bfStep_record P x n1 n2 h1 h2
    rw [if_pos hpos] at hrec
    apply Prod.ext_iff.mpr
    refine ⟨?_, bfStep_profile_eq P x⟩
    rw [hrec, h]
    apply Prod.ext_iff.mpr
    exact ⟨rfl, by omega⟩
  · intro P x h
    have hprof := bfStep_profile_eq P x
    apply Prod.ext_iff.mpr
    refine ⟨?_, hprof⟩
    rw [h]
    by_cases hcond : (bfLoop x.height x.width P 0 (-1) 0 0 (-1)).1 ≠ -1 ∧
        (bfLoop x.height x.width P 0 (-1) 0 0 (-1)).2.1 ≠ -1
    · exfalso
      have hsc := bfLoop_scan_eq x.height x.width P 0 (-1) 0 0 (-1)
      have hf1 : (scanRun x.height x.width P 0 (-1) (-1)).1
          = (bfLoop x.height x.width P 0 (-1) 0 0 (-1)).1 :=
        (congrArg Prod.fst hsc).symm
      have hf2 : (scanRun x.height x.width P 0 (-1) (-1)).2
          = (bfLoop x.height x.width P 0 (-1) 0 0 (-1)).2.1 :=
        (congrArg Prod.snd hsc).symm
      have hplf : (scanRun x.height x.width P 0 (-1) (-1)).1 ≠ -1 ∧
          (scanRun x.height x.width P 0 (-1) (-1)).2 ≠ -1 := by
        rw [hf1, hf2]
        exact hcond
      have hff : (ffStep P x).1 = ((scanRun x.height x.width P 0 (-1) (-1)).1,
          (scanRun x.height x.width P 0 (-1) (-1)).2) := by
        unfold ffStep
        rw [if_pos hplf]
      rw [h] at hff
      exact hplf.1 (congrArg Prod.fst hff.symm)
    · unfold bfStep
      rw [if_neg hcond]
  · intro P x n1 n2 h hall
    obtain ⟨h1, h2, hle, hlt, heq, hwin, _⟩ := ffStep_placed P x n1 n2 h
    have hz : slackFrom x.height P n1 (n2 + 1 - n1) = 0 :=
      slackFrom_eq_zero_of_all x.height P n1 (n2 + 1 - n1)
        (fun i hi => hall (n1 + i) (by omega) (by omega))
    have hn1 : P.getD n1 0 = x.height := hall n1 (by omega) (by omega)
    have hnpos : ¬(0 < (P.getD n1 0 - x.height)
        + slackFrom x.height P n1 (n2 + 1 - n1)) := by omega
    have hrec := bfStep_record P x n1 n2 h1 h2
    rw [if_neg hnpos] at hrec
    refine ⟨?_, bfStep_profile_eq P x⟩
    rw [hrec]
    apply Prod.ext_iff.mpr
    exact ⟨rfl, by ring⟩

theorem best_fit_refines_first_fit_witness :
    bfStep [6, 5] ⟨2, 5⟩ = ffStep [6, 5] ⟨2, 5⟩ :=
  best_fit_refines_first_fit.2.1 [6, 5] ⟨2, 5⟩ 0 1 (by decide)
    ⟨0, by decide, by decide, by decide⟩
